import Mathlib

/-!
Shallow embedding of the multi-stream concurrent download engine of
`google/cloud/bigquery/_pandas_helpers.py`: the functions
`_download_table_bqstorage_stream`, `_nowait` and `_download_table_bqstorage`,
the shared flag class `_DownloadState`, and the blocking discipline of the
Python `queue.Queue` they rely on (a `put` blocks exactly when
`maxsize > 0` and the queue already holds `maxsize` items).

The worker threads, the coordinator generator and the consuming caller are
modelled as an interleaving small-step transition system: each label picks one
participant, and one step performs one atomic action of that participant's
code.  Types `P` (wire page), `I` (decoded item) and `E` (Python exception
value) are opaque parameters, and the caller-supplied `page_to_item` decode
adapter is an explicit function argument `decode : P → Except E I`.
-/

deriving instance DecidableEq for Except

namespace BQ

/-- List lookup, mirroring indexing into the Python thread/future list. -/
def listGet {α : Type} : List α → Nat → Option α
  | [], _ => none
  | a :: _, 0 => some a
  | _ :: as, n + 1 => listGet as n

/-- Pointwise list update (out-of-range updates are dropped). -/
def listSet {α : Type} : List α → Nat → α → List α
  | [], _, _ => []
  | _ :: as, 0, b => b :: as
  | a :: as, n + 1, b => a :: listSet as n b

/-- Local state of one stream worker running the body of
`_download_table_bqstorage_stream`.  The worker's remaining stream is a list
of fetch results: `Except.ok p` is a page delivered by `rowstream.pages`,
`Except.error e` is a fetch that raises `e` out of the iterator.

* `fetching pages`: about to ask the page iterator for its next element
  (the `for page in rowstream.pages` loop header);
* `checking page rest`: a page was fetched, about to test `download_state.done`;
* `pushing item rest`: the page was decoded, inside `worker_queue.put(item)`
  (blocked while the queue is full);
* `finishedOk`: the function returned normally;
* `failed e`: the function raised `e` (captured by the thread-pool future). -/
inductive WStatus (P I E : Type) : Type
  | fetching (pages : List (Except E P))
  | checking (page : P) (rest : List (Except E P))
  | pushing (item : I) (rest : List (Except E P))
  | finishedOk
  | failed (e : E)
  deriving DecidableEq

/-- How the coordinator generator terminates: a normal `StopIteration`, a
propagated worker exception `e`, or a `GeneratorExit` after the caller closed
the generator early. -/
inductive Outcome (E : Type) : Type
  | normal
  | error (e : E)
  | closed
  deriving DecidableEq

/-- Program counter of the coordinator generator `_download_table_bqstorage`
after the workers are spawned.

* `loopTop`: the `while not_done:` condition test;
* `sweep`: the `_nowait` partition plus the `future.result()` loop;
* `getItem`: `worker_queue.get(timeout=_PROGRESS_INTERVAL)`;
* `yieldMain`: suspended at the `yield frame` inside the while-loop;
* `residual`: the trailing `worker_queue.get_nowait()` drain loop;
* `yieldRes`: suspended at the `yield frame` of the drain loop;
* `finalize o`: entered the `finally:` block, about to set the done flag;
* `joinWorkers o`: inside `pool.shutdown(wait=True)`;
* `returned o`: the generator finished with outcome `o`. -/
inductive Phase (E : Type) : Type
  | loopTop
  | sweep
  | getItem
  | yieldMain
  | residual
  | yieldRes
  | finalize (o : Outcome E)
  | joinWorkers (o : Outcome E)
  | returned (o : Outcome E)
  deriving DecidableEq

/-- Global state of one spawned download: the worker pool, the coordinator's
`not_done` future list (indices into `workers`), the relay `queue.Queue`
content and its `maxsize`, the `_DownloadState.done` flag, the items so far
delivered to the caller by `yield`, and the coordinator's program counter. -/
structure Sys (P I E : Type) : Type where
  workers : List (WStatus P I E)
  notDone : List Nat
  queue : List I
  maxsize : Int
  done : Bool
  delivered : List I
  phase : Phase E
  deriving DecidableEq

/-- Whether a thread-pool future reports `future.done()`. -/
def isTerminal {P I E : Type} : WStatus P I E → Bool
  | .finishedOk => true
  | .failed _ => true
  | _ => false

/-- Worker status of `future.done()` looked up by index (out-of-range indices never occur in
reachable states; they are treated as done so that `_nowait` ignores them). -/
def isTerminalAt {P I E : Type} (ws : List (WStatus P I E)) (i : Nat) : Bool :=
  match listGet ws i with
  | some w => isTerminal w
  | none => true

/-- CPython `queue.Queue.put` blocks iff `maxsize > 0` and the queue already
holds at least `maxsize` items; a zero or negative `maxsize` never blocks. -/
def hasRoom {I : Type} (q : List I) (maxsize : Int) : Bool :=
  decide (maxsize ≤ 0) || decide ((q.length : Int) < maxsize)

/-- The `for future in done: future.result()` loop of the coordinator: the
first finished future in list order that raised gives the exception that
`result()` re-raises; if none raised, the loop just returns. -/
def firstError {P I E : Type} (ws : List (WStatus P I E)) : List Nat → Option E
  | [] => none
  | i :: rest =>
    match listGet ws i with
    | some (.failed e) => some e
    | _ => firstError ws rest

/-- One atomic action of worker `i` running
`_download_table_bqstorage_stream`.  `none` means worker `i` cannot act: it
already terminated, it is blocked in `worker_queue.put` on a full queue, or
there is no worker `i`. -/
def wstep {P I E : Type} (decode : P → Except E I) (s : Sys P I E) (i : Nat) :
    Option (Sys P I E) :=
  match listGet s.workers i with
  | none => none
  | some st =>
    match st with
    | .fetching [] => some { s with workers := listSet s.workers i .finishedOk }
    | .fetching (.error e :: _) =>
      some { s with workers := listSet s.workers i (.failed e) }
    | .fetching (.ok p :: rest) =>
      some { s with workers := listSet s.workers i (.checking p rest) }
    | .checking p rest =>
      if s.done then
        some { s with workers := listSet s.workers i .finishedOk }
      else
        match decode p with
        | .ok it => some { s with workers := listSet s.workers i (.pushing it rest) }
        | .error e => some { s with workers := listSet s.workers i (.failed e) }
    | .pushing it rest =>
      if hasRoom s.queue s.maxsize then
        some { s with
                workers := listSet s.workers i (.fetching rest)
                queue := s.queue ++ [it] }
      else none
    | .finishedOk => none
    | .failed _ => none

/-- One atomic action of the coordinator generator while it is running inside
the caller's `next()`/`close()` call.  `none` means the coordinator is not
currently runnable: it is suspended at a `yield`, it already returned, or it
is blocked in `pool.shutdown(wait=True)` waiting on a live worker. -/
def cstep {P I E : Type} (s : Sys P I E) : Option (Sys P I E) :=
  match s.phase with
  | .loopTop =>
    match s.notDone with
    | [] => some { s with phase := .residual }
    | _ :: _ => some { s with phase := .sweep }
  | .sweep =>
    let nd := s.notDone.filter (fun i => ! isTerminalAt s.workers i)
    match firstError s.workers (s.notDone.filter (fun i => isTerminalAt s.workers i)) with
    | some e => some { s with notDone := nd, phase := .finalize (.error e) }
    | none => some { s with notDone := nd, phase := .getItem }
  | .getItem =>
    match s.queue with
    | [] => some { s with phase := .loopTop }
    | x :: q =>
      some { s with queue := q, delivered := s.delivered ++ [x], phase := .yieldMain }
  | .residual =>
    match s.queue with
    | [] => some { s with phase := .finalize .normal }
    | x :: q =>
      some { s with queue := q, delivered := s.delivered ++ [x], phase := .yieldRes }
  | .finalize o => some { s with done := true, phase := .joinWorkers o }
  | .joinWorkers o =>
    if s.workers.all isTerminal then some { s with phase := .returned o } else none
  | _ => none

/-- The caller resumes the suspended generator with another `next()`. -/
def pullStep {P I E : Type} (s : Sys P I E) : Option (Sys P I E) :=
  match s.phase with
  | .yieldMain => some { s with phase := .loopTop }
  | .yieldRes => some { s with phase := .residual }
  | _ => none

/-- The caller abandons iteration: `close()` throws `GeneratorExit` into the
generator at its current `yield`, so control jumps to the `finally:` block. -/
def closeStep {P I E : Type} (s : Sys P I E) : Option (Sys P I E) :=
  match s.phase with
  | .yieldMain => some { s with phase := .finalize .closed }
  | .yieldRes => some { s with phase := .finalize .closed }
  | _ => none

/-- Scheduling label: which participant performs the next atomic action. -/
inductive Label : Type
  | w (i : Nat)
  | c
  | pull
  | close
  deriving DecidableEq

/-- One interleaving step of the whole system. -/
def step {P I E : Type} (decode : P → Except E I) (s : Sys P I E) :
    Label → Option (Sys P I E)
  | .w i => wstep decode s i
  | .c => cstep s
  | .pull => pullStep s
  | .close => closeStep s

/-- Run a finite schedule of labels; `none` if some scheduled participant
cannot act at its turn. -/
def run {P I E : Type} (decode : P → Except E I) (s : Sys P I E) :
    List Label → Option (Sys P I E)
  | [] => some s
  | l :: ls =>
    match step decode s l with
    | none => none
    | some s' => run decode s' ls

/-- State of a freshly spawned download over the negotiated streams: one
worker per stream at its loop header, all futures not done, empty queue,
`_DownloadState.done = False`, nothing delivered, coordinator at the
`while not_done:` test. -/
def mkInit {P I E : Type} (streams : List (List (Except E P))) (maxsize : Int) :
    Sys P I E :=
  { workers := streams.map .fetching
    notDone := List.range streams.length
    queue := []
    maxsize := maxsize
    done := false
    delivered := []
    phase := .loopTop }

/-- Number of pages a worker still has to deliver (its fetched-but-unpushed
page counts as pending until the push lands in the queue). -/
def pendingCount {P I E : Type} : WStatus P I E → Nat
  | .fetching pages => pages.length
  | .checking _ rest => rest.length + 1
  | .pushing _ rest => rest.length + 1
  | .finishedOk => 0
  | .failed _ => 0

/-- Total pending pages over the worker pool. -/
def pendingSum {P I E : Type} (ws : List (WStatus P I E)) : Nat :=
  (ws.map pendingCount).sum

/-- Total page count of the negotiated streams. -/
def totalPages {P E : Type} (streams : List (List (Except E P))) : Nat :=
  (streams.map List.length).sum

/-- A stream entry that can neither fail to fetch nor fail to decode. -/
def goodEntry {P I E : Type} (decode : P → Except E I) : Except E P → Bool
  | .ok p =>
    match decode p with
    | .ok _ => true
    | .error _ => false
  | .error _ => false

/-- A worker whose whole remaining work is failure-free (and which has not
failed). -/
def goodW {P I E : Type} (decode : P → Except E I) : WStatus P I E → Bool
  | .fetching pages => pages.all (goodEntry decode)
  | .checking p rest => goodEntry decode (.ok p) && rest.all (goodEntry decode)
  | .pushing _ rest => rest.all (goodEntry decode)
  | .finishedOk => true
  | .failed _ => false

/-- Failure-free download scenario: every page of every stream fetches and
decodes successfully. -/
def goodStreams {P I E : Type} (decode : P → Except E I)
    (streams : List (List (Except E P))) : Bool :=
  streams.all (fun st => st.all (goodEntry decode))

/-- The decoded items of one stream, in source page order. -/
def decodedList {P I E : Type} (decode : P → Except E I) :
    List (Except E P) → List I
  | [] => []
  | .ok p :: rest =>
    match decode p with
    | .ok it => it :: decodedList decode rest
    | .error _ => decodedList decode rest
  | .error _ :: rest => decodedList decode rest

/-- The items a worker still owes the queue, in order (single-stream
order-preservation bookkeeping). -/
def pendingList {P I E : Type} (decode : P → Except E I) :
    WStatus P I E → List I
  | .fetching pages => decodedList decode pages
  | .checking p rest => decodedList decode (.ok p :: rest)
  | .pushing it rest => it :: decodedList decode rest
  | .finishedOk => []
  | .failed _ => []

/-! ### Front end of `_download_table_bqstorage`

The part of `_download_table_bqstorage` that runs before any worker is
spawned: table-reference validation, stream-count selection, session
negotiation (an external collaborator, passed in as a function), the
empty-table early return, and relay-queue sizing. -/

/-- The two `ValueError`s raised by the table-reference validation. -/
inductive DownloadError : Type
  | partitionNotSupported
  | snapshotNotSupported
  deriving DecidableEq

/-- The `max_queue_size` argument: the module-level sentinel default
`_MAX_QUEUE_SIZE_DEFAULT`, the `None` override, or an explicit integer. -/
inductive MaxQueueSize : Type
  | default
  | unbounded
  | explicit (n : Int)
  deriving DecidableEq

/-- Value of `requested_streams = 1 if preserve_order else 0`: the `max_stream_count`
sent to `create_read_session`. -/
def requestedStreamCount (preserveOrder : Bool) : Nat :=
  if preserveOrder then 1 else 0

/-- The `maxsize` handed to `queue.Queue`: the sentinel default becomes the
negotiated stream count, `None` becomes `0` (unbounded in Python queue
semantics), an explicit integer is passed through unchecked. -/
def resolveMaxQueueSize (mqs : MaxQueueSize) (totalStreams : Nat) : Int :=
  match mqs with
  | .default => totalStreams
  | .unbounded => 0
  | .explicit n => n

/-- Result of the pre-spawn part of `_download_table_bqstorage`: either the
empty-table early return (no `_DownloadState`, no queue, no workers are ever
created) or a spawned machine state. -/
inductive DownloadPlan (P I E : Type) : Type
  | emptyResult
  | spawn (init : Sys P I E)
  deriving DecidableEq

/-- The spawned machine of a plan, if any. -/
def DownloadPlan.spawned {P I E : Type} : DownloadPlan P I E → Option (Sys P I E)
  | .emptyResult => none
  | .spawn s => some s

/-- Pre-spawn control flow of `_download_table_bqstorage` (table reference
given by the character list of `table.table_id`).  `negotiate` models
`bqstorage_client.create_read_session`, mapping the requested
`max_stream_count` to the session's stream list (each stream given by its
page fetch results).  The second component records whether
`create_read_session` (the only network activity) was invoked. -/
def download_table_bqstorage {P I E : Type} (tableId : List Char)
    (preserveOrder : Bool) (maxQueueSize : MaxQueueSize)
    (negotiate : Nat → List (List (Except E P))) :
    Except DownloadError (DownloadPlan P I E) × Bool :=
  if tableId.contains '$' then
    (.error .partitionNotSupported, false)
  else if tableId.contains '@' then
    (.error .snapshotNotSupported, false)
  else
    let streams := negotiate (requestedStreamCount preserveOrder)
    if streams.isEmpty then
      (.ok .emptyResult, true)
    else
      (.ok (.spawn (mkInit streams (resolveMaxQueueSize maxQueueSize streams.length))),
        true)

/-- Queue `maxsize` of the plan's spawned machine, if it spawned one. -/
def planMaxsize {P I E : Type}
    (r : Except DownloadError (DownloadPlan P I E) × Bool) : Option Int :=
  match r.1 with
  | .ok (.spawn s) => some s.maxsize
  | _ => none

/-! ### Helper lemmas about the list operations -/

theorem listGet_listSet_self {α : Type} :
    ∀ (ws : List α) (i : Nat) (w wOld : α), listGet ws i = some wOld →
      listGet (listSet ws i w) i = some w := by
  intro ws
  induction ws with
  | nil => intro i w wOld h; cases h
  | cons a as ih =>
    intro i w wOld h
    cases i with
    | zero => rfl
    | succ n => exact ih n w wOld h

theorem listGet_listSet_ne {α : Type} :
    ∀ (ws : List α) (i j : Nat) (w : α), i ≠ j →
      listGet (listSet ws i w) j = listGet ws j := by
  intro ws
  induction ws with
  | nil => intro i j w _; cases i <;> rfl
  | cons a as ih =>
    intro i j w hij
    cases i with
    | zero =>
      cases j with
      | zero => exact absurd rfl hij
      | succ m => rfl
    | succ n =>
      cases j with
      | zero => rfl
      | succ m => exact ih n m w (fun hc => hij (by rw [hc]))

theorem listSet_length {α : Type} :
    ∀ (ws : List α) (i : Nat) (w : α), (listSet ws i w).length = ws.length := by
  intro ws
  induction ws with
  | nil => intro i w; rfl
  | cons a as ih =>
    intro i w
    cases i with
    | zero => rfl
    | succ n => simp [listSet, ih n w]

theorem sumMap_listSet {α : Type} (f : α → Nat) :
    ∀ (ws : List α) (i : Nat) (w wOld : α), listGet ws i = some wOld →
      ((listSet ws i w).map f).sum + f wOld = (ws.map f).sum + f w := by
  intro ws
  induction ws with
  | nil => intro i w wOld h; cases h
  | cons a as ih =>
    intro i w wOld h
    cases i with
    | zero =>
      cases h
      simp [listSet]
      omega
    | succ n =>
      have := ih n w wOld h
      simp [listSet]
      omega

theorem all_listSet {α : Type} (p : α → Bool) :
    ∀ (ws : List α) (i : Nat) (w : α), ws.all p = true → p w = true →
      (listSet ws i w).all p = true := by
  intro ws
  induction ws with
  | nil => intro i w _ _; rfl
  | cons a as ih =>
    intro i w hall hw
    simp only [List.all_cons, Bool.and_eq_true] at hall
    cases i with
    | zero => simp [listSet, hw, hall.2]
    | succ n => simp [listSet, hall.1, ih n w hall.2 hw]

theorem all_listGet {α : Type} (p : α → Bool) :
    ∀ (ws : List α) (i : Nat) (w : α), ws.all p = true → listGet ws i = some w →
      p w = true := by
  intro ws
  induction ws with
  | nil => intro i w _ h; cases h
  | cons a as ih =>
    intro i w hall h
    simp only [List.all_cons, Bool.and_eq_true] at hall
    cases i with
    | zero => cases h; exact hall.1
    | succ n => exact ih n w hall.2 h

theorem all_of_forallGet {α : Type} (p : α → Bool) :
    ∀ ws : List α, (∀ i w, listGet ws i = some w → p w = true) → ws.all p = true := by
  intro ws
  induction ws with
  | nil => intro _; rfl
  | cons a as ih =>
    intro h
    simp only [List.all_cons, Bool.and_eq_true]
    constructor
    · exact h 0 a rfl
    · exact ih (fun i w hw => h (i + 1) w hw)

theorem listGet_singleton {α : Type} {a b : α} {i : Nat}
    (h : listGet [a] i = some b) : i = 0 ∧ a = b := by
  cases i with
  | zero => cases h; exact ⟨rfl, rfl⟩
  | succ n => cases n <;> cases h

/-! ### Characterization of single steps -/

/-- Everything a successful worker step can be: the fields it leaves alone,
and the seven transitions of `_download_table_bqstorage_stream`'s loop. -/
theorem wstep_cases {P I E : Type} (decode : P → Except E I) (s s' : Sys P I E)
    (i : Nat) (h : wstep decode s i = some s') :
    s'.phase = s.phase ∧ s'.done = s.done ∧ s'.notDone = s.notDone ∧
    s'.delivered = s.delivered ∧ s'.maxsize = s.maxsize ∧
    ∃ st, listGet s.workers i = some st ∧ isTerminal st = false ∧
      ((st = .fetching [] ∧ s'.queue = s.queue ∧
          s'.workers = listSet s.workers i .finishedOk) ∨
       (∃ e rest, st = .fetching (.error e :: rest) ∧ s'.queue = s.queue ∧
          s'.workers = listSet s.workers i (.failed e)) ∨
       (∃ p rest, st = .fetching (.ok p :: rest) ∧ s'.queue = s.queue ∧
          s'.workers = listSet s.workers i (.checking p rest)) ∨
       (∃ p rest, st = .checking p rest ∧ s.done = true ∧ s'.queue = s.queue ∧
          s'.workers = listSet s.workers i .finishedOk) ∨
       (∃ p rest it, st = .checking p rest ∧ s.done = false ∧ decode p = .ok it ∧
          s'.queue = s.queue ∧ s'.workers = listSet s.workers i (.pushing it rest)) ∨
       (∃ p rest e, st = .checking p rest ∧ s.done = false ∧ decode p = .error e ∧
          s'.queue = s.queue ∧ s'.workers = listSet s.workers i (.failed e)) ∨
       (∃ it rest, st = .pushing it rest ∧ hasRoom s.queue s.maxsize = true ∧
          s'.queue = s.queue ++ [it] ∧
          s'.workers = listSet s.workers i (.fetching rest))) := by
  unfold wstep at h
  cases hget : listGet s.workers i with
  | none => rw [hget] at h; cases h
  | some st =>
    rw [hget] at h
    cases st with
    | fetching pages =>
      cases pages with
      | nil =>
        cases h
        refine ⟨rfl, rfl, rfl, rfl, rfl, .fetching [], rfl, rfl, .inl ⟨rfl, rfl, rfl⟩⟩
      | cons pg rest =>
        cases pg with
        | ok p =>
          cases h
          exact ⟨rfl, rfl, rfl, rfl, rfl, .fetching (.ok p :: rest), rfl, rfl,
            .inr (.inr (.inl ⟨p, rest, rfl, rfl, rfl⟩))⟩
        | error e =>
          cases h
          exact ⟨rfl, rfl, rfl, rfl, rfl, .fetching (.error e :: rest), rfl, rfl,
            .inr (.inl ⟨e, rest, rfl, rfl, rfl⟩)⟩
    | checking p rest =>
      cases hd : s.done with
      | true =>
        rw [hd] at h
        simp only [if_true] at h
        cases h
        exact ⟨rfl, rfl, rfl, rfl, rfl, .checking p rest, rfl, rfl,
          .inr (.inr (.inr (.inl ⟨p, rest, rfl, rfl, rfl, rfl⟩)))⟩
      | false =>
        rw [hd] at h
        simp only [Bool.false_eq_true, if_false] at h
        cases hdec : decode p with
        | ok it =>
          rw [hdec] at h
          cases h
          exact ⟨rfl, rfl, rfl, rfl, rfl, .checking p rest, rfl, rfl,
            .inr (.inr (.inr (.inr (.inl ⟨p, rest, it, rfl, rfl, hdec, rfl, rfl⟩))))⟩
        | error e =>
          rw [hdec] at h
          cases h
          exact ⟨rfl, rfl, rfl, rfl, rfl, .checking p rest, rfl, rfl,
            .inr (.inr (.inr (.inr (.inr (.inl ⟨p, rest, e, rfl, rfl, hdec, rfl, rfl⟩)))))⟩
    | pushing it rest =>
      cases hr : hasRoom s.queue s.maxsize with
      | true =>
        rw [hr] at h
        simp only [if_true] at h
        cases h
        exact ⟨rfl, rfl, rfl, rfl, rfl, .pushing it rest, rfl, rfl,
          .inr (.inr (.inr (.inr (.inr (.inr ⟨it, rest, rfl, rfl, rfl, rfl⟩)))))⟩
      | false =>
        rw [hr] at h
        simp only [Bool.false_eq_true, if_false] at h
        cases h
    | finishedOk => cases h
    | failed e => cases h

/-- Everything a successful coordinator step can be: the ten transitions of
the drain loop, the residual drain, and the `finally:` block. -/
theorem cstep_cases {P I E : Type} (s s' : Sys P I E) (h : cstep s = some s') :
    s'.workers = s.workers ∧ s'.maxsize = s.maxsize ∧
    ((s.phase = .loopTop ∧ s.notDone = [] ∧ s' = { s with phase := .residual }) ∨
     (∃ j l, s.phase = .loopTop ∧ s.notDone = j :: l ∧
        s' = { s with phase := .sweep }) ∨
     (∃ e, s.phase = .sweep ∧
        firstError s.workers (s.notDone.filter (fun i => isTerminalAt s.workers i)) =
          some e ∧
        s' = { s with
                notDone := s.notDone.filter (fun i => ! isTerminalAt s.workers i)
                phase := .finalize (.error e) }) ∨
     (s.phase = .sweep ∧
        firstError s.workers (s.notDone.filter (fun i => isTerminalAt s.workers i)) =
          none ∧
        s' = { s with
                notDone := s.notDone.filter (fun i => ! isTerminalAt s.workers i)
                phase := .getItem }) ∨
     (s.phase = .getItem ∧ s.queue = [] ∧ s' = { s with phase := .loopTop }) ∨
     (∃ x q, s.phase = .getItem ∧ s.queue = x :: q ∧
        s' = { s with
                queue := q
                delivered := s.delivered ++ [x]
                phase := .yieldMain }) ∨
     (s.phase = .residual ∧ s.queue = [] ∧
        s' = { s with phase := .finalize .normal }) ∨
     (∃ x q, s.phase = .residual ∧ s.queue = x :: q ∧
        s' = { s with
                queue := q
                delivered := s.delivered ++ [x]
                phase := .yieldRes }) ∨
     (∃ o, s.phase = .finalize o ∧
        s' = { s with done := true, phase := .joinWorkers o }) ∨
     (∃ o, s.phase = .joinWorkers o ∧ s.workers.all isTerminal = true ∧
        s' = { s with phase := .returned o })) := by
  unfold cstep at h
  cases hp : s.phase with
  | loopTop =>
    rw [hp] at h
    cases hnd : s.notDone with
    | nil =>
      rw [hnd] at h
      cases h
      exact ⟨rfl, rfl, .inl ⟨rfl, rfl, rfl⟩⟩
    | cons j l =>
      rw [hnd] at h
      cases h
      exact ⟨rfl, rfl, .inr (.inl ⟨j, l, rfl, rfl, rfl⟩)⟩
  | sweep =>
    rw [hp] at h
    simp only at h
    cases hfe : firstError s.workers
        (s.notDone.filter (fun i => isTerminalAt s.workers i)) with
    | some e =>
      rw [hfe] at h
      cases h
      exact ⟨rfl, rfl, .inr (.inr (.inl ⟨e, rfl, rfl, rfl⟩))⟩
    | none =>
      rw [hfe] at h
      cases h
      exact ⟨rfl, rfl, .inr (.inr (.inr (.inl ⟨rfl, rfl, rfl⟩)))⟩
  | getItem =>
    rw [hp] at h
    cases hq : s.queue with
    | nil =>
      rw [hq] at h
      cases h
      exact ⟨rfl, rfl, .inr (.inr (.inr (.inr (.inl ⟨rfl, rfl, rfl⟩))))⟩
    | cons x q =>
      rw [hq] at h
      cases h
      exact ⟨rfl, rfl, .inr (.inr (.inr (.inr (.inr (.inl ⟨x, q, rfl, rfl, rfl⟩)))))⟩
  | residual =>
    rw [hp] at h
    cases hq : s.queue with
    | nil =>
      rw [hq] at h
      cases h
      exact ⟨rfl, rfl,
        .inr (.inr (.inr (.inr (.inr (.inr (.inl ⟨rfl, rfl, rfl⟩))))))⟩
    | cons x q =>
      rw [hq] at h
      cases h
      exact ⟨rfl, rfl,
        .inr (.inr (.inr (.inr (.inr (.inr (.inr (.inl ⟨x, q, rfl, rfl, rfl⟩)))))))⟩
  | finalize o =>
    rw [hp] at h
    cases h
    exact ⟨rfl, rfl,
      .inr (.inr (.inr (.inr (.inr (.inr (.inr (.inr (.inl ⟨o, rfl, rfl⟩))))))))⟩
  | joinWorkers o =>
    rw [hp] at h
    cases ha : s.workers.all isTerminal with
    | true =>
      rw [ha] at h
      simp only [if_true] at h
      cases h
      exact ⟨rfl, rfl,
        .inr (.inr (.inr (.inr (.inr (.inr (.inr (.inr (.inr ⟨o, rfl, rfl, rfl⟩))))))))⟩
    | false =>
      rw [ha] at h
      simp only [Bool.false_eq_true, if_false] at h
      cases h
  | yieldMain => rw [hp] at h; cases h
  | yieldRes => rw [hp] at h; cases h
  | returned o => rw [hp] at h; cases h

/-- The two caller resumption steps. -/
theorem pullStep_cases {P I E : Type} (s s' : Sys P I E) (h : pullStep s = some s') :
    (s.phase = .yieldMain ∧ s' = { s with phase := .loopTop }) ∨
    (s.phase = .yieldRes ∧ s' = { s with phase := .residual }) := by
  unfold pullStep at h
  cases hp : s.phase <;> rw [hp] at h <;> cases h
  · exact .inl ⟨rfl, rfl⟩
  · exact .inr ⟨rfl, rfl⟩

/-- The two caller early-termination steps. -/
theorem closeStep_cases {P I E : Type} (s s' : Sys P I E) (h : closeStep s = some s') :
    (s.phase = .yieldMain ∨ s.phase = .yieldRes) ∧
    s' = { s with phase := .finalize .closed } := by
  unfold closeStep at h
  cases hp : s.phase <;> rw [hp] at h <;> cases h
  · exact ⟨.inl rfl, rfl⟩
  · exact ⟨.inr rfl, rfl⟩

/-! ### Shutdown invariant (claim C1) -/

/-- Once the coordinator is inside `pool.shutdown(wait=True)` the done flag is
already set, and once the generator has returned (on any outcome) the flag is
set and every worker thread has exited. -/
structure Inv1 {P I E : Type} (s : Sys P I E) : Prop where
  join : ∀ o, s.phase = .joinWorkers o → s.done = true
  ret : ∀ o, s.phase = .returned o →
    s.done = true ∧ s.workers.all isTerminal = true

theorem inv1_step {P I E : Type} (decode : P → Except E I) (s s' : Sys P I E)
    (l : Label) (hinv : Inv1 s) (h : step decode s l = some s') : Inv1 s' := by
  cases l with
  | w i =>
    obtain ⟨hph, hdn, -, -, -, st, hget, hterm, -⟩ := wstep_cases decode s s' i h
    constructor
    · intro o ho
      rw [hph] at ho
      rw [hdn]
      exact hinv.join o ho
    · intro o ho
      rw [hph] at ho
      have hall := (hinv.ret o ho).2
      have hst := all_listGet isTerminal s.workers i st hall hget
      rw [hst] at hterm
      cases hterm
  | c =>
    obtain ⟨hw, -, hbr⟩ := cstep_cases s s' h
    rcases hbr with ⟨hp, hnd, rfl⟩ | ⟨j, lst, hp, hnd, rfl⟩ | ⟨e, hp, hfe, rfl⟩ |
      ⟨hp, hfe, rfl⟩ | ⟨hp, hq, rfl⟩ | ⟨x, q, hp, hq, rfl⟩ | ⟨hp, hq, rfl⟩ |
      ⟨x, q, hp, hq, rfl⟩ | ⟨o, hp, rfl⟩ | ⟨o, hp, ha, rfl⟩
    case _ => exact ⟨(fun o ho => nomatch ho), (fun o ho => nomatch ho)⟩
    case _ => exact ⟨(fun o ho => nomatch ho), (fun o ho => nomatch ho)⟩
    case _ => exact ⟨(fun o ho => nomatch ho), (fun o ho => nomatch ho)⟩
    case _ => exact ⟨(fun o ho => nomatch ho), (fun o ho => nomatch ho)⟩
    case _ => exact ⟨(fun o ho => nomatch ho), (fun o ho => nomatch ho)⟩
    case _ => exact ⟨(fun o ho => nomatch ho), (fun o ho => nomatch ho)⟩
    case _ => exact ⟨(fun o ho => nomatch ho), (fun o ho => nomatch ho)⟩
    case _ => exact ⟨(fun o ho => nomatch ho), (fun o ho => nomatch ho)⟩
    case _ => exact ⟨(fun o' ho => rfl), (fun o' ho => nomatch ho)⟩
    case _ => exact ⟨(fun o' ho => nomatch ho), (fun o' ho => ⟨hinv.join o hp, ha⟩)⟩
  | pull =>
    rcases pullStep_cases s s' h with ⟨hp, rfl⟩ | ⟨hp, rfl⟩ <;>
      exact ⟨(fun o ho => nomatch ho), (fun o ho => nomatch ho)⟩
  | close =>
    obtain ⟨-, rfl⟩ := closeStep_cases s s' h
    exact ⟨(fun o ho => nomatch ho), (fun o ho => nomatch ho)⟩

theorem inv1_run {P I E : Type} (decode : P → Except E I) :
    ∀ (L : List Label) (s s' : Sys P I E),
      Inv1 s → run decode s L = some s' → Inv1 s' := by
  intro L
  induction L with
  | nil =>
    intro s s' hinv h
    cases h
    exact hinv
  | cons l ls ih =>
    intro s s' hinv h
    unfold run at h
    cases hstep : step decode s l with
    | none => rw [hstep] at h; cases h
    | some s1 =>
      rw [hstep] at h
      exact ih s1 s' (inv1_step decode s s1 l hinv hstep) h

/-- C1: on every exit path of the spawned download machine — normal
exhaustion, a worker error raised to the caller, or caller-side early
termination — the coordinator sets the shared cancellation flag before
entering `pool.shutdown(wait=True)`, and the generator never returns (with
any outcome) while any worker thread is still running: at `returned` the flag
is set and every worker has exited. -/
theorem claim_C1 {P I E : Type} (decode : P → Except E I)
    (streams : List (List (Except E P))) (maxsize : Int) (L : List Label)
    (s : Sys P I E) (h : run decode (mkInit streams maxsize) L = some s) :
    (∀ o, s.phase = .joinWorkers o → s.done = true) ∧
    (∀ o, s.phase = .returned o →
      s.done = true ∧ s.workers.all isTerminal = true) := by
  have hinv := inv1_run decode L (mkInit streams maxsize) s
    ⟨(fun o ho => nomatch ho), (fun o ho => nomatch ho)⟩ h
  exact ⟨hinv.join, hinv.ret⟩

/-- The identity decode adapter used by the concrete witness runs. -/
def okDecode : Nat → Except Nat Nat := fun p => .ok p

/-- Final state of a complete one-stream, one-page download run. -/
def c1final : Sys Nat Nat Nat :=
  { workers := [.finishedOk], notDone := [], queue := [], maxsize := 1,
    done := true, delivered := [5], phase := .returned .normal }

/-- Witness for C1: a complete concrete run reaches `returned` with the flag
set and the worker pool fully exited. -/
theorem claim_C1_witness :
    c1final.done = true ∧ c1final.workers.all isTerminal = true :=
  (claim_C1 okDecode [[Except.ok 5]] 1
    [.w 0, .w 0, .w 0, .w 0, .c, .c, .c, .pull, .c, .c, .c, .c]
    c1final (by decide)).2 .normal rfl

/-! ### Error-propagation invariant (claim C3) -/

theorem firstError_some {P I E : Type} (ws : List (WStatus P I E)) :
    ∀ (l : List Nat) (e : E), firstError ws l = some e →
      ∃ i, i ∈ l ∧ listGet ws i = some (.failed e) := by
  intro l
  induction l with
  | nil => intro e h; cases h
  | cons i rest ih =>
    intro e h
    unfold firstError at h
    cases hget : listGet ws i with
    | none =>
      rw [hget] at h
      obtain ⟨j, hj, hf⟩ := ih e h
      exact ⟨j, List.mem_cons_of_mem i hj, hf⟩
    | some w =>
      rw [hget] at h
      cases w with
      | failed e0 =>
        cases h
        exact ⟨i, List.mem_cons_self i rest, hget⟩
      | fetching pages =>
        obtain ⟨j, hj, hf⟩ := ih e h
        exact ⟨j, List.mem_cons_of_mem i hj, hf⟩
      | checking p r =>
        obtain ⟨j, hj, hf⟩ := ih e h
        exact ⟨j, List.mem_cons_of_mem i hj, hf⟩
      | pushing it r =>
        obtain ⟨j, hj, hf⟩ := ih e h
        exact ⟨j, List.mem_cons_of_mem i hj, hf⟩
      | finishedOk =>
        obtain ⟨j, hj, hf⟩ := ih e h
        exact ⟨j, List.mem_cons_of_mem i hj, hf⟩

theorem firstError_none {P I E : Type} (ws : List (WStatus P I E)) :
    ∀ l : List Nat, firstError ws l = none →
      ∀ i, i ∈ l → ∀ e : E, ¬ listGet ws i = some (.failed e) := by
  intro l
  induction l with
  | nil => intro _ i hi; cases hi
  | cons j rest ih =>
    intro h i hi e hf
    unfold firstError at h
    cases hi with
    | head =>
      rw [hf] at h
      cases h
    | tail _ hmem =>
      cases hget : listGet ws j with
      | none =>
        rw [hget] at h
        exact ih h i hmem e hf
      | some w =>
        rw [hget] at h
        cases w with
        | failed e0 => cases h
        | fetching pages => exact ih h i hmem e hf
        | checking p r => exact ih h i hmem e hf
        | pushing it r => exact ih h i hmem e hf
        | finishedOk => exact ih h i hmem e hf

/-- The sweep raises a captured worker error the moment it observes a failed
finished future: if any not-done-listed worker has failed, the very next
coordinator action at `sweep` drives the machine to `finalize` carrying some
failed worker's exact exception. -/
theorem sweep_raises {P I E : Type} (s : Sys P I E) (hp : s.phase = .sweep)
    (i : Nat) (e : E) (hi : i ∈ s.notDone)
    (hf : listGet s.workers i = some (.failed e)) :
    ∃ e' s', cstep s = some s' ∧ s'.phase = .finalize (.error e') ∧
      ∃ j, j ∈ s.notDone ∧ listGet s.workers j = some (.failed e') := by
  cases hfe : firstError s.workers
      (s.notDone.filter (fun k => isTerminalAt s.workers k)) with
  | none =>
    have hmem : i ∈ s.notDone.filter (fun k => isTerminalAt s.workers k) := by
      apply List.mem_filter.mpr
      refine ⟨hi, ?_⟩
      simp [isTerminalAt, hf, isTerminal]
    exact absurd hf (firstError_none s.workers _ hfe i hmem e)
  | some e' =>
    obtain ⟨j, hj, hjf⟩ := firstError_some s.workers _ e' hfe
    have hc : cstep s = some { s with
        notDone := s.notDone.filter (fun k => ! isTerminalAt s.workers k)
        phase := .finalize (.error e') } := by
      unfold cstep
      rw [hp]
      simp only [hfe]
    exact ⟨e', _, hc, rfl, j, (List.mem_filter.mp hj).1, hjf⟩

/-- Any error outcome carried by the coordinator's exit phases is the
captured exception of some failed worker, unmodified. -/
def Inv3 {P I E : Type} (s : Sys P I E) : Prop :=
  ∀ e : E, (s.phase = .finalize (.error e) ∨ s.phase = .joinWorkers (.error e) ∨
      s.phase = .returned (.error e)) →
    ∃ i, listGet s.workers i = some (.failed e)

theorem inv3_step {P I E : Type} (decode : P → Except E I) (s s' : Sys P I E)
    (l : Label) (hinv : Inv3 s) (h : step decode s l = some s') : Inv3 s' := by
  cases l with
  | w i =>
    obtain ⟨hph, -, -, -, -, st, hget, hterm, hbr⟩ := wstep_cases decode s s' i h
    have hwk : ∃ nw, s'.workers = listSet s.workers i nw := by
      rcases hbr with ⟨-, -, hw⟩ | ⟨e1, r1, -, -, hw⟩ | ⟨p1, r1, -, -, hw⟩ |
        ⟨p1, r1, -, -, -, hw⟩ | ⟨p1, r1, i1, -, -, -, -, hw⟩ |
        ⟨p1, r1, e1, -, -, -, -, hw⟩ | ⟨i1, r1, -, -, -, hw⟩
      all_goals exact ⟨_, hw⟩
    obtain ⟨nw, hwk⟩ := hwk
    intro e he
    rw [hph] at he
    obtain ⟨i0, hi0⟩ := hinv e he
    by_cases hii : i = i0
    · subst hii
      rw [hget] at hi0
      injection hi0 with hi0
      rw [hi0] at hterm
      simp [isTerminal] at hterm
    · refine ⟨i0, ?_⟩
      rw [hwk, listGet_listSet_ne s.workers i i0 nw hii]
      exact hi0
  | c =>
    obtain ⟨hw, -, hbr⟩ := cstep_cases s s' h
    rcases hbr with ⟨hp, hnd, rfl⟩ | ⟨j, lst, hp, hnd, rfl⟩ | ⟨e0, hp, hfe, rfl⟩ |
      ⟨hp, hfe, rfl⟩ | ⟨hp, hq, rfl⟩ | ⟨x, q, hp, hq, rfl⟩ | ⟨hp, hq, rfl⟩ |
      ⟨x, q, hp, hq, rfl⟩ | ⟨o, hp, rfl⟩ | ⟨o, hp, ha, rfl⟩
    case _ => intro e he; rcases he with he | he | he <;> cases he
    case _ => intro e he; rcases he with he | he | he <;> cases he
    case _ =>
      intro e he
      rcases he with he | he | he
      · have he0 : e0 = e := by
          have := congrArg (fun ph => match ph with
            | Phase.finalize (.error x) => some x
            | _ => none) he
          simpa using this
        subst he0
        obtain ⟨j, hj, hjf⟩ := firstError_some s.workers _ e0 hfe
        exact ⟨j, hjf⟩
      · cases he
      · cases he
    case _ => intro e he; rcases he with he | he | he <;> cases he
    case _ => intro e he; rcases he with he | he | he <;> cases he
    case _ => intro e he; rcases he with he | he | he <;> cases he
    case _ =>
      intro e he
      rcases he with he | he | he
      · have : (Outcome.normal : Outcome E) = .error e := by
          injection he
        cases this
      · cases he
      · cases he
    case _ => intro e he; rcases he with he | he | he <;> cases he
    case _ =>
      intro e he
      rcases he with he | he | he
      · cases he
      · have ho : o = .error e := by injection he
        subst ho
        exact hinv e (.inl hp)
      · cases he
    case _ =>
      intro e he
      rcases he with he | he | he
      · cases he
      · cases he
      · have ho : o = .error e := by injection he
        subst ho
        exact hinv e (.inr (.inl hp))
  | pull =>
    rcases pullStep_cases s s' h with ⟨hp, rfl⟩ | ⟨hp, rfl⟩ <;>
      · intro e he; rcases he with he | he | he <;> cases he
  | close =>
    obtain ⟨-, rfl⟩ := closeStep_cases s s' h
    intro e he
    rcases he with he | he | he
    · have : (Outcome.closed : Outcome E) = .error e := by injection he
      cases this
    · cases he
    · cases he

theorem inv3_run {P I E : Type} (decode : P → Except E I) :
    ∀ (L : List Label) (s s' : Sys P I E),
      Inv3 s → run decode s L = some s' → Inv3 s' := by
  intro L
  induction L with
  | nil =>
    intro s s' hinv h
    cases h
    exact hinv
  | cons l ls ih =>
    intro s s' hinv h
    unfold run at h
    cases hstep : step decode s l with
    | none => rw [hstep] at h; cases h
    | some s1 =>
      rw [hstep] at h
      exact ih s1 s' (inv3_step decode s s1 l hinv hstep) h

/-- C3: every worker error is propagated to the caller unmodified — an error
outcome of the generator is exactly some worker's captured exception — and it
is raised as soon as the failed worker's completion is observed by the drain
loop's non-blocking sweep: from `sweep` with a failed not-done worker, the
next coordinator action re-raises a failed worker's exact exception. -/
theorem claim_C3 {P I E : Type} (decode : P → Except E I)
    (streams : List (List (Except E P))) (maxsize : Int) (L : List Label)
    (s : Sys P I E) (h : run decode (mkInit streams maxsize) L = some s) :
    (∀ e, s.phase = .returned (.error e) →
      ∃ i, listGet s.workers i = some (.failed e)) ∧
    (∀ i e, s.phase = .sweep → i ∈ s.notDone →
      listGet s.workers i = some (.failed e) →
      ∃ e' s', cstep s = some s' ∧ s'.phase = .finalize (.error e') ∧
        ∃ j, j ∈ s.notDone ∧ listGet s.workers j = some (.failed e')) := by
  have hinv := inv3_run decode L (mkInit streams maxsize) s
    (fun e he => by rcases he with he | he | he <;> cases he) h
  constructor
  · intro e he
    exact hinv e (.inr (.inr he))
  · intro i e hp hi hf
    exact sweep_raises s hp i e hi hf

/-- Final state of a run whose single worker fails fetching its first page. -/
def c3final : Sys Nat Nat Nat :=
  { workers := [.failed 7], notDone := [], queue := [], maxsize := 1,
    done := true, delivered := [], phase := .returned (.error 7) }

/-- Witness for C3: a concrete failing run ends with the generator raising
exception `7`, and that exception is exactly the failed worker's. -/
theorem claim_C3_witness :
    ∃ i, listGet c3final.workers i = some (.failed 7) :=
  (claim_C3 okDecode [[Except.error 7]] 1 [.w 0, .c, .c, .c, .c]
    c3final (by decide)).1 7 rfl

/-! ### Conservation invariant (claim C5) -/

theorem listGet_some_lt {α : Type} :
    ∀ (ws : List α) (i : Nat) (w : α), listGet ws i = some w → i < ws.length := by
  intro ws
  induction ws with
  | nil => intro i w h; cases h
  | cons a as ih =>
    intro i w h
    cases i with
    | zero => simp
    | succ n => exact Nat.succ_lt_succ (ih n w h)

theorem isTerminalAt_listSet_ne {P I E : Type} (ws : List (WStatus P I E))
    (i j : Nat) (w : WStatus P I E) (hij : i ≠ j) :
    isTerminalAt (listSet ws i w) j = isTerminalAt ws j := by
  unfold isTerminalAt
  rw [listGet_listSet_ne ws i j w hij]

theorem pendingSum_terminal {P I E : Type} :
    ∀ ws : List (WStatus P I E), ws.all isTerminal = true → pendingSum ws = 0 := by
  intro ws
  induction ws with
  | nil => intro _; rfl
  | cons w tail ih =>
    intro h
    simp only [List.all_cons, Bool.and_eq_true] at h
    have hz : pendingCount w = 0 := by
      cases w with
      | finishedOk => rfl
      | failed e => rfl
      | fetching pages => simp [isTerminal] at h
      | checking p r => simp [isTerminal] at h
      | pushing it r => simp [isTerminal] at h
    simp [pendingSum, hz] at *
    exact ih h.2

theorem all_terminal_of_at {P I E : Type} (ws : List (WStatus P I E))
    (h : ∀ i, i < ws.length → isTerminalAt ws i = true) :
    ws.all isTerminal = true := by
  apply all_of_forallGet
  intro i w hget
  have hi := listGet_some_lt ws i w hget
  have := h i hi
  unfold isTerminalAt at this
  rw [hget] at this
  exact this

/-- Conservation invariant of the drain loop: while the done flag is down,
yielded items, queued items and pending worker pages add up to the total page
count; every worker the coordinator no longer lists as not-done has exited;
the residual drain only runs after the not-done list emptied; in a
failure-free scenario workers stay failure-free; the flag only goes up in the
`finally:` block; and on the normal exit path the queue has been fully
drained into exactly `T` delivered items. -/
structure Inv5 {P I E : Type} (decode : P → Except E I) (T : Nat)
    (s : Sys P I E) : Prop where
  count : s.done = false →
    s.delivered.length + s.queue.length + pendingSum s.workers = T
  nd : ∀ i, i < s.workers.length → i ∉ s.notDone → isTerminalAt s.workers i = true
  rnd : s.phase = .residual ∨ s.phase = .yieldRes → s.notDone = []
  good : s.workers.all (goodW decode) = true
  dphase : s.done = true → ∃ o, s.phase = .joinWorkers o ∨ s.phase = .returned o
  fin : s.phase = .finalize .normal ∨ s.phase = .joinWorkers .normal ∨
      s.phase = .returned .normal →
    s.queue = [] ∧ s.delivered.length = T ∧ s.workers.all isTerminal = true

theorem inv5_wstep_aux {P I E : Type} (decode : P → Except E I) (T : Nat)
    (s s' : Sys P I E) (i : Nat) (st nw : WStatus P I E)
    (hinv : Inv5 decode T s)
    (hph : s'.phase = s.phase) (hdn : s'.done = s.done)
    (hnd : s'.notDone = s.notDone) (hdel : s'.delivered = s.delivered)
    (hget : listGet s.workers i = some st) (hterm : isTerminal st = false)
    (hw : s'.workers = listSet s.workers i nw)
    (hgoodnw : goodW decode nw = true)
    (hcount : s.done = false →
      s'.queue.length + pendingCount nw = s.queue.length + pendingCount st) :
    Inv5 decode T s' := by
  constructor
  · intro hdone'
    rw [hdn] at hdone'
    have hc := hinv.count hdone'
    have hsum := sumMap_listSet pendingCount s.workers i nw st hget
    have hq := hcount hdone'
    rw [hdel, hw]
    unfold pendingSum at *
    omega
  · intro j hj hjn
    rw [hw, listSet_length] at hj
    rw [hnd] at hjn
    by_cases hij : i = j
    · subst hij
      have hold := hinv.nd i hj hjn
      unfold isTerminalAt at hold
      rw [hget] at hold
      have hold2 : isTerminal st = true := hold
      rw [hold2] at hterm
      cases hterm
    · rw [hw, isTerminalAt_listSet_ne s.workers i j nw hij]
      exact hinv.nd j hj hjn
  · intro hp'
    rw [hph] at hp'
    rw [hnd]
    exact hinv.rnd hp'
  · rw [hw]
    exact all_listSet (goodW decode) s.workers i nw hinv.good hgoodnw
  · intro hdone'
    rw [hdn] at hdone'
    obtain ⟨o, ho⟩ := hinv.dphase hdone'
    refine ⟨o, ?_⟩
    rw [hph]
    exact ho
  · intro hp'
    rw [hph] at hp'
    have hfin := hinv.fin hp'
    have hst := all_listGet isTerminal s.workers i st hfin.2.2 hget
    rw [hst] at hterm
    cases hterm

theorem inv5_step {P I E : Type} (decode : P → Except E I) (T : Nat)
    (s s' : Sys P I E) (l : Label) (hinv : Inv5 decode T s)
    (h : step decode s l = some s') : Inv5 decode T s' := by
  cases l with
  | w i =>
    obtain ⟨hph, hdn, hnd, hdel, -, st, hget, hterm, hbr⟩ :=
      wstep_cases decode s s' i h
    have hgood_st := all_listGet (goodW decode) s.workers i st hinv.good hget
    rcases hbr with ⟨rfl, hqe, hw⟩ | ⟨e1, r1, rfl, hqe, hw⟩ |
      ⟨p1, r1, rfl, hqe, hw⟩ | ⟨p1, r1, rfl, hdone1, hqe, hw⟩ |
      ⟨p1, r1, i1, rfl, hdone0, hdec, hqe, hw⟩ |
      ⟨p1, r1, e1, rfl, hdone0, hdec, hqe, hw⟩ | ⟨i1, r1, rfl, hroom, hqe, hw⟩
    · exact inv5_wstep_aux decode T s s' i _ .finishedOk hinv hph hdn hnd hdel
        hget hterm hw rfl (fun _ => by rw [hqe]; simp [pendingCount])
    · simp [goodW, goodEntry] at hgood_st
    · refine inv5_wstep_aux decode T s s' i _ (.checking p1 r1) hinv hph hdn hnd hdel
        hget hterm hw ?_ (fun _ => by rw [hqe]; simp [pendingCount])
      simp only [goodW, List.all_cons, Bool.and_eq_true] at hgood_st ⊢
      exact hgood_st
    · exact inv5_wstep_aux decode T s s' i _ .finishedOk hinv hph hdn hnd hdel
        hget hterm hw rfl (fun hd0 => by rw [hdone1] at hd0; cases hd0)
    · refine inv5_wstep_aux decode T s s' i _ (.pushing i1 r1) hinv hph hdn hnd hdel
        hget hterm hw ?_ (fun _ => by rw [hqe]; simp [pendingCount])
      simp only [goodW, Bool.and_eq_true] at hgood_st
      exact hgood_st.2
    · simp [goodW, goodEntry, hdec] at hgood_st
    · refine inv5_wstep_aux decode T s s' i _ (.fetching r1) hinv hph hdn hnd hdel
        hget hterm hw ?_ (fun _ => ?_)
      · simpa [goodW] using hgood_st
      · rw [hqe]
        simp [pendingCount]
        omega
  | c =>
    obtain ⟨hw, -, hbr⟩ := cstep_cases s s' h
    rcases hbr with ⟨hp, hnd, rfl⟩ | ⟨j, lst, hp, hnd, rfl⟩ | ⟨e0, hp, hfe, rfl⟩ |
      ⟨hp, hfe, rfl⟩ | ⟨hp, hq, rfl⟩ | ⟨x, q, hp, hq, rfl⟩ | ⟨hp, hq, rfl⟩ |
      ⟨x, q, hp, hq, rfl⟩ | ⟨o, hp, rfl⟩ | ⟨o, hp, ha, rfl⟩
    -- loopTop with empty notDone: enter the residual drain
    · refine ⟨hinv.count, hinv.nd, fun _ => hnd, hinv.good, ?_, ?_⟩
      · intro hdone'
        obtain ⟨o, ho⟩ := hinv.dphase hdone'
        rw [hp] at ho
        rcases ho with ho | ho <;> cases ho
      · intro hp'
        rcases hp' with hp' | hp' | hp' <;> cases hp'
    -- loopTop with nonempty notDone: sweep
    · refine ⟨hinv.count, hinv.nd, ?_, hinv.good, ?_, ?_⟩
      · intro hp'
        rcases hp' with hp' | hp' <;> cases hp'
      · intro hdone'
        obtain ⟨o, ho⟩ := hinv.dphase hdone'
        rw [hp] at ho
        rcases ho with ho | ho <;> cases ho
      · intro hp'
        rcases hp' with hp' | hp' | hp' <;> cases hp'
    -- sweep observes a failed worker: raise
    · refine ⟨hinv.count, ?_, ?_, hinv.good, ?_, ?_⟩
      · intro j2 hj2 hjn2
        by_cases hmem : j2 ∈ s.notDone
        · have : isTerminalAt s.workers j2 = true := by
            by_contra hcon
            have hfalse : isTerminalAt s.workers j2 = false :=
              Bool.eq_false_iff.mpr hcon
            exact hjn2 (List.mem_filter.mpr ⟨hmem, by simp [hfalse]⟩)
          exact this
        · exact hinv.nd j2 hj2 hmem
      · intro hp'
        rcases hp' with hp' | hp' <;> cases hp'
      · intro hdone'
        obtain ⟨o, ho⟩ := hinv.dphase hdone'
        rw [hp] at ho
        rcases ho with ho | ho <;> cases ho
      · intro hp'
        rcases hp' with hp' | hp' | hp' <;> simp at hp'
    -- sweep observes no failure: attempt the bounded-wait get
    · refine ⟨hinv.count, ?_, ?_, hinv.good, ?_, ?_⟩
      · intro j2 hj2 hjn2
        by_cases hmem : j2 ∈ s.notDone
        · have : isTerminalAt s.workers j2 = true := by
            by_contra hcon
            have hfalse : isTerminalAt s.workers j2 = false :=
              Bool.eq_false_iff.mpr hcon
            exact hjn2 (List.mem_filter.mpr ⟨hmem, by simp [hfalse]⟩)
          exact this
        · exact hinv.nd j2 hj2 hmem
      · intro hp'
        rcases hp' with hp' | hp' <;> cases hp'
      · intro hdone'
        obtain ⟨o, ho⟩ := hinv.dphase hdone'
        rw [hp] at ho
        rcases ho with ho | ho <;> cases ho
      · intro hp'
        rcases hp' with hp' | hp' | hp' <;> cases hp'
    -- get timed out on an empty queue: back to the loop top
    · refine ⟨hinv.count, hinv.nd, ?_, hinv.good, ?_, ?_⟩
      · intro hp'
        rcases hp' with hp' | hp' <;> cases hp'
      · intro hdone'
        obtain ⟨o, ho⟩ := hinv.dphase hdone'
        rw [hp] at ho
        rcases ho with ho | ho <;> cases ho
      · intro hp'
        rcases hp' with hp' | hp' | hp' <;> cases hp'
    -- get popped an item: yield it
    · refine ⟨?_, hinv.nd, ?_, hinv.good, ?_, ?_⟩
      · intro hdone'
        have hc := hinv.count hdone'
        rw [hq] at hc
        simp at hc ⊢
        omega
      · intro hp'
        rcases hp' with hp' | hp' <;> cases hp'
      · intro hdone'
        obtain ⟨o, ho⟩ := hinv.dphase hdone'
        rw [hp] at ho
        rcases ho with ho | ho <;> cases ho
      · intro hp'
        rcases hp' with hp' | hp' | hp' <;> cases hp'
    -- residual drain found the queue empty: normal exit via finally
    · have hdone0 : s.done = false := by
        cases hdone : s.done with
        | false => rfl
        | true =>
          obtain ⟨o, ho⟩ := hinv.dphase hdone
          rw [hp] at ho
          rcases ho with ho | ho <;> cases ho
      have hndnil := hinv.rnd (.inl hp)
      have htermall : s.workers.all isTerminal = true := by
        apply all_terminal_of_at
        intro i2 hi2
        apply hinv.nd i2 hi2
        rw [hndnil]
        simp
      have hdel : s.delivered.length = T := by
        have hc := hinv.count hdone0
        have hz := pendingSum_terminal s.workers htermall
        rw [hq] at hc
        simp at hc
        omega
      refine ⟨hinv.count, hinv.nd, ?_, hinv.good, ?_, ?_⟩
      · intro hp'
        rcases hp' with hp' | hp' <;> cases hp'
      · intro hdone'
        obtain ⟨o, ho⟩ := hinv.dphase hdone'
        rw [hp] at ho
        rcases ho with ho | ho <;> cases ho
      · intro hp'
        exact ⟨hq, hdel, htermall⟩
    -- residual drain popped an item: yield it
    · have hndnil := hinv.rnd (.inl hp)
      refine ⟨?_, hinv.nd, fun _ => hndnil, hinv.good, ?_, ?_⟩
      · intro hdone'
        have hc := hinv.count hdone'
        rw [hq] at hc
        simp at hc ⊢
        omega
      · intro hdone'
        obtain ⟨o, ho⟩ := hinv.dphase hdone'
        rw [hp] at ho
        rcases ho with ho | ho <;> cases ho
      · intro hp'
        rcases hp' with hp' | hp' | hp' <;> cases hp'
    -- the finally block: set the flag, then join
    · refine ⟨?_, hinv.nd, ?_, hinv.good, ?_, ?_⟩
      · intro hdone'
        cases hdone'
      · intro hp'
        rcases hp' with hp' | hp' <;> cases hp'
      · intro _
        exact ⟨o, .inl rfl⟩
      · intro hp'
        rcases hp' with hp' | hp' | hp'
        · cases hp'
        · have ho : o = .normal := by injection hp'
          subst ho
          exact hinv.fin (.inl hp)
        · cases hp'
    -- the join completed: the generator returns
    · refine ⟨hinv.count, hinv.nd, ?_, hinv.good, ?_, ?_⟩
      · intro hp'
        rcases hp' with hp' | hp' <;> cases hp'
      · intro _
        exact ⟨o, .inr rfl⟩
      · intro hp'
        rcases hp' with hp' | hp' | hp'
        · cases hp'
        · cases hp'
        · have ho : o = .normal := by injection hp'
          subst ho
          exact hinv.fin (.inr (.inl hp))
  | pull =>
    rcases pullStep_cases s s' h with ⟨hp, rfl⟩ | ⟨hp, rfl⟩
    · refine ⟨hinv.count, hinv.nd, ?_, hinv.good, ?_, ?_⟩
      · intro hp'
        rcases hp' with hp' | hp' <;> cases hp'
      · intro hdone'
        obtain ⟨o, ho⟩ := hinv.dphase hdone'
        rw [hp] at ho
        rcases ho with ho | ho <;> cases ho
      · intro hp'
        rcases hp' with hp' | hp' | hp' <;> cases hp'
    · have hndnil := hinv.rnd (.inr hp)
      refine ⟨hinv.count, hinv.nd, fun _ => hndnil, hinv.good, ?_, ?_⟩
      · intro hdone'
        obtain ⟨o, ho⟩ := hinv.dphase hdone'
        rw [hp] at ho
        rcases ho with ho | ho <;> cases ho
      · intro hp'
        rcases hp' with hp' | hp' | hp' <;> cases hp'
  | close =>
    obtain ⟨hp0, rfl⟩ := closeStep_cases s s' h
    refine ⟨hinv.count, hinv.nd, ?_, hinv.good, ?_, ?_⟩
    · intro hp'
      rcases hp' with hp' | hp' <;> cases hp'
    · intro hdone'
      obtain ⟨o, ho⟩ := hinv.dphase hdone'
      rcases hp0 with hp | hp <;> rw [hp] at ho <;> rcases ho with ho | ho <;> cases ho
    · intro hp'
      rcases hp' with hp' | hp' | hp'
      · have : (Outcome.closed : Outcome E) = .normal := by injection hp'
        cases this
      · cases hp'
      · cases hp'

theorem inv5_run {P I E : Type} (decode : P → Except E I) (T : Nat) :
    ∀ (L : List Label) (s s' : Sys P I E),
      Inv5 decode T s → run decode s L = some s' → Inv5 decode T s' := by
  intro L
  induction L with
  | nil =>
    intro s s' hinv h
    cases h
    exact hinv
  | cons l ls ih =>
    intro s s' hinv h
    unfold run at h
    cases hstep : step decode s l with
    | none => rw [hstep] at h; cases h
    | some s1 =>
      rw [hstep] at h
      exact ih s1 s' (inv5_step decode T s s1 l hinv hstep) h

theorem pendingSum_map_fetching {P I E : Type} :
    ∀ ss : List (List (Except E P)),
      pendingSum ((ss.map WStatus.fetching : List (WStatus P I E))) = totalPages ss := by
  intro ss
  induction ss with
  | nil => rfl
  | cons a as ih =>
    unfold pendingSum totalPages at ih ⊢
    simp only [List.map_cons, List.sum_cons]
    rw [ih]
    rfl

theorem all_map_fetching {P I E : Type} (decode : P → Except E I) :
    ∀ streams : List (List (Except E P)),
      goodStreams decode streams = true →
      ((streams.map WStatus.fetching : List (WStatus P I E)).all (goodW decode)) =
        true := by
  intro streams
  induction streams with
  | nil => intro _; rfl
  | cons st rest ih =>
    intro h
    simp only [goodStreams, List.all_cons, Bool.and_eq_true] at h
    simp only [List.map_cons, List.all_cons, Bool.and_eq_true]
    exact ⟨h.1, ih h.2⟩

theorem inv5_init {P I E : Type} (decode : P → Except E I)
    (streams : List (List (Except E P))) (maxsize : Int)
    (hgood : goodStreams decode streams = true) :
    Inv5 decode (totalPages streams) (@mkInit P I E streams maxsize) := by
  constructor
  · intro _
    show 0 + 0 + pendingSum (streams.map .fetching) = totalPages streams
    rw [pendingSum_map_fetching streams]
    omega
  · intro i hi hmem
    exfalso
    apply hmem
    apply List.mem_range.mpr
    simpa [mkInit] using hi
  · intro hp'
    rcases hp' with hp' | hp' <;> cases hp'
  · show (streams.map .fetching).all (goodW decode) = true
    exact all_map_fetching decode streams hgood
  · intro hdone'
    cases hdone'
  · intro hp'
    rcases hp' with hp' | hp' | hp' <;> cases hp'

/-- C5: for a failure-free download over any number of streams, every
schedule in which the generator runs to normal exhaustion delivers exactly
one decoded batch per source page — the number of yielded items equals the
total page count, none lost, none duplicated. -/
theorem claim_C5 {P I E : Type} (decode : P → Except E I)
    (streams : List (List (Except E P))) (maxsize : Int) (L : List Label)
    (s : Sys P I E) (hgood : goodStreams decode streams = true)
    (h : run decode (mkInit streams maxsize) L = some s)
    (hret : s.phase = .returned .normal) :
    s.delivered.length = totalPages streams := by
  have hinv := inv5_run decode (totalPages streams) L (mkInit streams maxsize) s
    (inv5_init decode streams maxsize hgood) h
  exact (hinv.fin (.inr (.inr hret))).2.1

/-- Final state of the complete two-stream run used as the C5 witness. -/
def c5final : Sys Nat Nat Nat :=
  { workers := [.finishedOk, .finishedOk], notDone := [], queue := [],
    maxsize := 2, done := true, delivered := [11, 21, 22],
    phase := .returned .normal }

/-- Witness for C5: a concrete failure-free two-stream run (one page plus two
pages) delivers exactly three batches. -/
theorem claim_C5_witness : c5final.delivered.length = totalPages
    ([[Except.ok 11], [Except.ok 21, Except.ok 22]] : List (List (Except Nat Nat))) :=
  claim_C5 okDecode [[Except.ok 11], [Except.ok 21, Except.ok 22]] 2
    [.w 0, .w 0, .w 0, .w 0, .w 1, .w 1, .w 1, .w 1, .w 1, .c, .c, .c,
     .pull, .w 1, .w 1, .c, .c, .c, .pull, .c, .c, .pull, .c, .c, .c]
    c5final (by decide) (by decide) rfl

/-! ### Order preservation in single-stream mode (claim C9) -/

theorem decodedList_cons_ok {P I E : Type} (decode : P → Except E I) (p : P)
    (it : I) (rest : List (Except E P)) (hdec : decode p = .ok it) :
    decodedList decode (.ok p :: rest) = it :: decodedList decode rest := by
  simp [decodedList, hdec]

theorem pendingList_terminal_good {P I E : Type} (decode : P → Except E I)
    (w : WStatus P I E) (hterm : isTerminal w = true)
    (hgood : goodW decode w = true) : pendingList decode w = [] := by
  cases w with
  | finishedOk => rfl
  | failed e => simp [goodW] at hgood
  | fetching pages => simp [isTerminal] at hterm
  | checking p r => simp [isTerminal] at hterm
  | pushing it r => simp [isTerminal] at hterm

/-- Single-stream invariant: with one worker, the delivered items, then the
queued items, then the worker's still-pending decoded pages, concatenated in
that order, spell out the stream's decoded pages in source order. -/
def Inv9 {P I E : Type} (decode : P → Except E I) (D : List I)
    (s : Sys P I E) : Prop :=
  ∃ w, s.workers = [w] ∧
    (s.done = false → s.delivered ++ s.queue ++ pendingList decode w = D) ∧
    (0 ∉ s.notDone → isTerminal w = true) ∧
    ((s.phase = .residual ∨ s.phase = .yieldRes) → s.notDone = []) ∧
    goodW decode w = true ∧
    (s.done = true → ∃ o, s.phase = .joinWorkers o ∨ s.phase = .returned o) ∧
    ((s.phase = .finalize .normal ∨ s.phase = .joinWorkers .normal ∨
        s.phase = .returned .normal) →
      s.queue = [] ∧ s.delivered = D ∧ isTerminal w = true)

theorem inv9_wstep_aux {P I E : Type} (decode : P → Except E I) (D : List I)
    (s s' : Sys P I E) (w nw : WStatus P I E)
    (hph : s'.phase = s.phase) (hdn : s'.done = s.done)
    (hnd : s'.notDone = s.notDone) (hdel : s'.delivered = s.delivered)
    (hterm : isTerminal w = false)
    (hcount : s.done = false →
      s.delivered ++ s.queue ++ pendingList decode w = D)
    (hndterm : 0 ∉ s.notDone → isTerminal w = true)
    (hrnd : (s.phase = .residual ∨ s.phase = .yieldRes) → s.notDone = [])
    (hgoodnw : goodW decode nw = true)
    (hdph : s.done = true → ∃ o, s.phase = .joinWorkers o ∨ s.phase = .returned o)
    (hfin : (s.phase = .finalize .normal ∨ s.phase = .joinWorkers .normal ∨
        s.phase = .returned .normal) →
      s.queue = [] ∧ s.delivered = D ∧ isTerminal w = true)
    (hw' : s'.workers = [nw])
    (hlist : s.done = false →
      s'.queue ++ pendingList decode nw = s.queue ++ pendingList decode w) :
    Inv9 decode D s' := by
  refine ⟨nw, hw', ?_, ?_, ?_, hgoodnw, ?_, ?_⟩
  · intro hdone'
    rw [hdn] at hdone'
    rw [hdel, List.append_assoc, hlist hdone', ← List.append_assoc]
    exact hcount hdone'
  · intro h0
    rw [hnd] at h0
    have := hndterm h0
    rw [this] at hterm
    cases hterm
  · intro hp'
    rw [hph] at hp'
    rw [hnd]
    exact hrnd hp'
  · intro hdone'
    rw [hdn] at hdone'
    obtain ⟨o, ho⟩ := hdph hdone'
    refine ⟨o, ?_⟩
    rw [hph]
    exact ho
  · intro hp'
    rw [hph] at hp'
    have := (hfin hp').2.2
    rw [this] at hterm
    cases hterm

theorem inv9_step {P I E : Type} (decode : P → Except E I) (D : List I)
    (s s' : Sys P I E) (l : Label) (hinv : Inv9 decode D s)
    (h : step decode s l = some s') : Inv9 decode D s' := by
  obtain ⟨w, hwrk, hcount, hndterm, hrnd, hgood, hdph, hfin⟩ := hinv
  cases l with
  | w i =>
    obtain ⟨hph, hdn, hnd, hdel, -, st, hget, hterm, hbr⟩ :=
      wstep_cases decode s s' i h
    rw [hwrk] at hget
    obtain ⟨rfl, rfl⟩ := listGet_singleton hget
    have hset : ∀ nw : WStatus P I E, listSet s.workers 0 nw = [nw] := by
      intro nw
      rw [hwrk]
      rfl
    rcases hbr with ⟨hst, hqe, hw⟩ | ⟨e1, r1, hst, hqe, hw⟩ |
      ⟨p1, r1, hst, hqe, hw⟩ | ⟨p1, r1, hst, hdone1, hqe, hw⟩ |
      ⟨p1, r1, i1, hst, hdone0, hdec, hqe, hw⟩ |
      ⟨p1, r1, e1, hst, hdone0, hdec, hqe, hw⟩ | ⟨i1, r1, hst, hroom, hqe, hw⟩
    · subst hst
      refine inv9_wstep_aux decode D s s' _ .finishedOk hph hdn hnd hdel hterm
        hcount hndterm hrnd rfl hdph hfin (by rw [hw, hset]) ?_
      intro _
      rw [hqe]
      rfl
    · subst hst
      simp [goodW, goodEntry] at hgood
    · subst hst
      refine inv9_wstep_aux decode D s s' _ (.checking p1 r1) hph hdn hnd hdel hterm
        hcount hndterm hrnd ?_ hdph hfin (by rw [hw, hset]) ?_
      · simp only [goodW, List.all_cons, Bool.and_eq_true] at hgood ⊢
        exact hgood
      · intro _
        rw [hqe]
        rfl
    · subst hst
      refine inv9_wstep_aux decode D s s' _ .finishedOk hph hdn hnd hdel hterm
        hcount hndterm hrnd rfl hdph hfin (by rw [hw, hset]) ?_
      intro hd0
      rw [hdone1] at hd0
      cases hd0
    · subst hst
      refine inv9_wstep_aux decode D s s' _ (.pushing i1 r1) hph hdn hnd hdel hterm
        hcount hndterm hrnd ?_ hdph hfin (by rw [hw, hset]) ?_
      · simp only [goodW, Bool.and_eq_true] at hgood
        exact hgood.2
      · intro _
        rw [hqe]
        show s.queue ++ (i1 :: decodedList decode r1) =
          s.queue ++ pendingList decode (.checking p1 r1)
        have : pendingList decode (.checking p1 r1) =
            i1 :: decodedList decode r1 := by
          show decodedList decode (.ok p1 :: r1) = i1 :: decodedList decode r1
          exact decodedList_cons_ok decode p1 i1 r1 hdec
        rw [this]
    · subst hst
      simp [goodW, goodEntry, hdec] at hgood
    · subst hst
      refine inv9_wstep_aux decode D s s' _ (.fetching r1) hph hdn hnd hdel hterm
        hcount hndterm hrnd ?_ hdph hfin (by rw [hw, hset]) ?_
      · simpa [goodW] using hgood
      · intro _
        rw [hqe]
        show (s.queue ++ [i1]) ++ decodedList decode r1 =
          s.queue ++ (i1 :: decodedList decode r1)
        simp
  | c =>
    obtain ⟨hw, -, hbr⟩ := cstep_cases s s' h
    rcases hbr with ⟨hp, hnd, rfl⟩ | ⟨j, lst, hp, hnd, rfl⟩ | ⟨e0, hp, hfe, rfl⟩ |
      ⟨hp, hfe, rfl⟩ | ⟨hp, hq, rfl⟩ | ⟨x, q, hp, hq, rfl⟩ | ⟨hp, hq, rfl⟩ |
      ⟨x, q, hp, hq, rfl⟩ | ⟨o, hp, rfl⟩ | ⟨o, hp, ha, rfl⟩
    -- loopTop with empty notDone: enter the residual drain
    · refine ⟨w, hwrk, hcount, hndterm, fun _ => hnd, hgood, ?_, ?_⟩
      · intro hdone'
        obtain ⟨o, ho⟩ := hdph hdone'
        rw [hp] at ho
        rcases ho with ho | ho <;> cases ho
      · intro hp'
        rcases hp' with hp' | hp' | hp' <;> cases hp'
    -- loopTop with nonempty notDone: sweep
    · refine ⟨w, hwrk, hcount, hndterm, ?_, hgood, ?_, ?_⟩
      · intro hp'
        rcases hp' with hp' | hp' <;> cases hp'
      · intro hdone'
        obtain ⟨o, ho⟩ := hdph hdone'
        rw [hp] at ho
        rcases ho with ho | ho <;> cases ho
      · intro hp'
        rcases hp' with hp' | hp' | hp' <;> cases hp'
    -- sweep with a failed observed future
    · refine ⟨w, hwrk, hcount, ?_, ?_, hgood, ?_, ?_⟩
      · intro h0
        by_cases hmem : 0 ∈ s.notDone
        · have hterm0 : isTerminalAt s.workers 0 = true := by
            by_contra hcon
            have hfalse : isTerminalAt s.workers 0 = false :=
              Bool.eq_false_iff.mpr hcon
            exact h0 (List.mem_filter.mpr ⟨hmem, by simp [hfalse]⟩)
          unfold isTerminalAt at hterm0
          rw [hwrk] at hterm0
          exact hterm0
        · exact hndterm hmem
      · intro hp'
        rcases hp' with hp' | hp' <;> cases hp'
      · intro hdone'
        obtain ⟨o, ho⟩ := hdph hdone'
        rw [hp] at ho
        rcases ho with ho | ho <;> cases ho
      · intro hp'
        rcases hp' with hp' | hp' | hp' <;> cases hp'
    -- sweep with no failure
    · refine ⟨w, hwrk, hcount, ?_, ?_, hgood, ?_, ?_⟩
      · intro h0
        by_cases hmem : 0 ∈ s.notDone
        · have hterm0 : isTerminalAt s.workers 0 = true := by
            by_contra hcon
            have hfalse : isTerminalAt s.workers 0 = false :=
              Bool.eq_false_iff.mpr hcon
            exact h0 (List.mem_filter.mpr ⟨hmem, by simp [hfalse]⟩)
          unfold isTerminalAt at hterm0
          rw [hwrk] at hterm0
          exact hterm0
        · exact hndterm hmem
      · intro hp'
        rcases hp' with hp' | hp' <;> cases hp'
      · intro hdone'
        obtain ⟨o, ho⟩ := hdph hdone'
        rw [hp] at ho
        rcases ho with ho | ho <;> cases ho
      · intro hp'
        rcases hp' with hp' | hp' | hp' <;> cases hp'
    -- get timed out on the empty queue
    · refine ⟨w, hwrk, hcount, hndterm, ?_, hgood, ?_, ?_⟩
      · intro hp'
        rcases hp' with hp' | hp' <;> cases hp'
      · intro hdone'
        obtain ⟨o, ho⟩ := hdph hdone'
        rw [hp] at ho
        rcases ho with ho | ho <;> cases ho
      · intro hp'
        rcases hp' with hp' | hp' | hp' <;> cases hp'
    -- get popped an item
    · refine ⟨w, hwrk, ?_, hndterm, ?_, hgood, ?_, ?_⟩
      · intro hdone'
        have hc := hcount hdone'
        rw [hq] at hc
        simpa using hc
      · intro hp'
        rcases hp' with hp' | hp' <;> cases hp'
      · intro hdone'
        obtain ⟨o, ho⟩ := hdph hdone'
        rw [hp] at ho
        rcases ho with ho | ho <;> cases ho
      · intro hp'
        rcases hp' with hp' | hp' | hp' <;> cases hp'
    -- residual drain found the queue empty: normal exit
    · have hdone0 : s.done = false := by
        cases hdone : s.done with
        | false => rfl
        | true =>
          obtain ⟨o, ho⟩ := hdph hdone
          rw [hp] at ho
          rcases ho with ho | ho <;> cases ho
      have hndnil := hrnd (.inl hp)
      have htermw : isTerminal w = true := by
        apply hndterm
        rw [hndnil]
        simp
      have hdelD : s.delivered = D := by
        have hc := hcount hdone0
        rw [hq, pendingList_terminal_good decode w htermw hgood] at hc
        simpa using hc
      refine ⟨w, hwrk, hcount, hndterm, ?_, hgood, ?_, ?_⟩
      · intro hp'
        rcases hp' with hp' | hp' <;> cases hp'
      · intro hdone'
        obtain ⟨o, ho⟩ := hdph hdone'
        rw [hp] at ho
        rcases ho with ho | ho <;> cases ho
      · intro _
        exact ⟨hq, hdelD, htermw⟩
    -- residual drain popped an item
    · have hndnil := hrnd (.inl hp)
      refine ⟨w, hwrk, ?_, hndterm, fun _ => hndnil, hgood, ?_, ?_⟩
      · intro hdone'
        have hc := hcount hdone'
        rw [hq] at hc
        simpa using hc
      · intro hdone'
        obtain ⟨o, ho⟩ := hdph hdone'
        rw [hp] at ho
        rcases ho with ho | ho <;> cases ho
      · intro hp'
        rcases hp' with hp' | hp' | hp' <;> cases hp'
    -- the finally block
    · refine ⟨w, hwrk, ?_, hndterm, ?_, hgood, ?_, ?_⟩
      · intro hdone'
        cases hdone'
      · intro hp'
        rcases hp' with hp' | hp' <;> cases hp'
      · intro _
        exact ⟨o, .inl rfl⟩
      · intro hp'
        rcases hp' with hp' | hp' | hp'
        · cases hp'
        · have ho : o = .normal := by injection hp'
          subst ho
          exact hfin (.inl hp)
        · cases hp'
    -- the join completed
    · refine ⟨w, hwrk, hcount, hndterm, ?_, hgood, ?_, ?_⟩
      · intro hp'
        rcases hp' with hp' | hp' <;> cases hp'
      · intro _
        exact ⟨o, .inr rfl⟩
      · intro hp'
        rcases hp' with hp' | hp' | hp'
        · cases hp'
        · cases hp'
        · have ho : o = .normal := by injection hp'
          subst ho
          exact hfin (.inr (.inl hp))
  | pull =>
    rcases pullStep_cases s s' h with ⟨hp, rfl⟩ | ⟨hp, rfl⟩
    · refine ⟨w, hwrk, hcount, hndterm, ?_, hgood, ?_, ?_⟩
      · intro hp'
        rcases hp' with hp' | hp' <;> cases hp'
      · intro hdone'
        obtain ⟨o, ho⟩ := hdph hdone'
        rw [hp] at ho
        rcases ho with ho | ho <;> cases ho
      · intro hp'
        rcases hp' with hp' | hp' | hp' <;> cases hp'
    · have hndnil := hrnd (.inr hp)
      refine ⟨w, hwrk, hcount, hndterm, fun _ => hndnil, hgood, ?_, ?_⟩
      · intro hdone'
        obtain ⟨o, ho⟩ := hdph hdone'
        rw [hp] at ho
        rcases ho with ho | ho <;> cases ho
      · intro hp'
        rcases hp' with hp' | hp' | hp' <;> cases hp'
  | close =>
    obtain ⟨hp0, rfl⟩ := closeStep_cases s s' h
    refine ⟨w, hwrk, hcount, hndterm, ?_, hgood, ?_, ?_⟩
    · intro hp'
      rcases hp' with hp' | hp' <;> cases hp'
    · intro hdone'
      obtain ⟨o, ho⟩ := hdph hdone'
      rcases hp0 with hp | hp <;> rw [hp] at ho <;>
        rcases ho with ho | ho <;> cases ho
    · intro hp'
      rcases hp' with hp' | hp' | hp'
      · have : (Outcome.closed : Outcome E) = .normal := by injection hp'
        cases this
      · cases hp'
      · cases hp'

theorem inv9_run {P I E : Type} (decode : P → Except E I) (D : List I) :
    ∀ (L : List Label) (s s' : Sys P I E),
      Inv9 decode D s → run decode s L = some s' → Inv9 decode D s' := by
  intro L
  induction L with
  | nil =>
    intro s s' hinv h
    cases h
    exact hinv
  | cons l ls ih =>
    intro s s' hinv h
    unfold run at h
    cases hstep : step decode s l with
    | none => rw [hstep] at h; cases h
    | some s1 =>
      rw [hstep] at h
      exact ih s1 s' (inv9_step decode D s s1 l hinv hstep) h

/-- C9: with `preserve_order` the engine asks session negotiation for exactly
one stream (`max_stream_count = 1`), and a single-stream download that runs
to normal exhaustion delivers the stream's decoded pages in exactly their
source order. -/
theorem claim_C9 : requestedStreamCount true = 1 ∧
    ∀ {P I E : Type} (decode : P → Except E I) (st : List (Except E P))
      (maxsize : Int) (L : List Label) (s : Sys P I E),
      st.all (goodEntry decode) = true →
      run decode (mkInit [st] maxsize) L = some s →
      s.phase = .returned .normal →
      s.delivered = decodedList decode st := by
  constructor
  · rfl
  · intro P I E decode st maxsize L s hgood h hret
    have hinit : Inv9 decode (decodedList decode st) (mkInit [st] maxsize) := by
      refine ⟨.fetching st, rfl, ?_, ?_, ?_, ?_, ?_, ?_⟩
      · intro _
        rfl
      · intro h0
        exfalso
        apply h0
        show 0 ∈ List.range 1
        simp
      · intro hp'
        rcases hp' with hp' | hp' <;> cases hp'
      · exact hgood
      · intro hdone'
        cases hdone'
      · intro hp'
        rcases hp' with hp' | hp' | hp' <;> cases hp'
    have hinv := inv9_run decode (decodedList decode st) L (mkInit [st] maxsize) s
      hinit h
    obtain ⟨w, hwrk, hcount, hndterm, hrnd, hgoodw, hdph, hfin⟩ := hinv
    exact (hfin (.inr (.inr hret))).2.1

/-- Final state of the concrete single-stream run used as the C9 witness. -/
def c9final : Sys Nat Nat Nat :=
  { workers := [.finishedOk], notDone := [], queue := [], maxsize := 1,
    done := true, delivered := [4, 6], phase := .returned .normal }

/-- Witness for C9: a concrete ordered two-page single-stream run delivers
the pages' decoded items in source order. -/
theorem claim_C9_witness :
    requestedStreamCount true = 1 ∧
    c9final.delivered = decodedList okDecode [Except.ok 4, Except.ok 6] :=
  ⟨claim_C9.1,
    claim_C9.2 okDecode [Except.ok 4, Except.ok 6] 1
      [.w 0, .w 0, .w 0, .c, .c, .c, .pull, .w 0, .w 0, .w 0, .w 0,
       .c, .c, .c, .pull, .c, .c, .c, .c]
      c9final (by decide) (by decide) rfl⟩

/-! ### Leak-freedom failure after early termination (claim C2) -/

/-- Initial state of the C2 scenario: one stream of three pages, relay queue
capacity 1 (explicit bound). -/
def c2init : Sys Nat Nat Nat := mkInit [[Except.ok 1, Except.ok 2, Except.ok 3]] 1

/-- Schedule: the worker fills the queue and fetches ahead; the caller takes
one item and then closes the generator; the `finally:` block sets the done
flag and enters `pool.shutdown(wait=True)`. -/
def c2trace : List Label :=
  [.w 0, .w 0, .w 0, .w 0, .w 0, .c, .c, .c, .w 0, .w 0, .w 0, .close, .c]

/-- The state the C2 schedule reaches: the worker is inside
`worker_queue.put` with the queue full, the done flag is set, and the
coordinator is inside `pool.shutdown(wait=True)`. -/
def c2stuck : Sys Nat Nat Nat :=
  { workers := [.pushing 3 []], notDone := [0], queue := [2], maxsize := 1,
    done := true, delivered := [1], phase := .joinWorkers .closed }

/-- C2 fails on this code: after the caller abandons iteration early while
the relay queue is full, the machine reaches a deadlock — the worker is
blocked forever in its queue push (nobody will ever pop, so it can never
re-check the cancellation flag) while the coordinator is blocked forever in
`pool.shutdown(wait=True)`; no participant has any enabled action, so the
worker thread stays alive unboundedly. -/
theorem claim_C2_deadlock :
    run okDecode c2init c2trace = some c2stuck ∧
    (∃ w, listGet c2stuck.workers 0 = some w ∧ isTerminal w = false) ∧
    (∀ l, step okDecode c2stuck l = none) := by
  refine ⟨by decide, ⟨.pushing 3 [], rfl, rfl⟩, ?_⟩
  intro l
  cases l with
  | w i =>
    cases i with
    | zero => decide
    | succ n => rfl
  | c => rfl
  | pull => rfl
  | close => rfl

/-! ### Worker loop operation order (claim C4) -/

def c4init : Sys Nat Nat Nat := mkInit [[Except.ok 1, Except.ok 2]] 1

def c4trace : List Label := [.w 0, .w 0, .w 0, .c, .c, .c, .close, .c]

/-- Reachable state with the cancellation flag already set while the worker
still sits at its loop header with a page left to fetch. -/
def c4mid : Sys Nat Nat Nat :=
  { workers := [.fetching [Except.ok 2]], notDone := [0], queue := [],
    maxsize := 1, done := true, delivered := [1], phase := .joinWorkers .closed }

/-- The state after the worker's next action from `c4mid`: it fetched. -/
def c4after : Sys Nat Nat Nat :=
  { workers := [.checking 2 []], notDone := [0], queue := [],
    maxsize := 1, done := true, delivered := [1], phase := .joinWorkers .closed }

/-- Counterexample to C4 as stated: in a reachable state whose cancellation
flag is already true, the worker's next loop iteration is not an immediate
return with no fetch — its next action advances the page iterator (a fetch),
and only the action after that observes the flag.  The flag check happens
after the fetch of each iteration, not before it. -/
theorem claim_C4_counterexample :
    run okDecode c4init c4trace = some c4mid ∧
    c4mid.done = true ∧
    listGet c4mid.workers 0 = some (.fetching [Except.ok 2]) ∧
    step okDecode c4mid (.w 0) = some c4after ∧
    listGet c4after.workers 0 = some (.checking 2 []) ∧
    isTerminal (WStatus.checking 2 [] : WStatus Nat Nat Nat) = false :=
  ⟨by decide, rfl, rfl, by decide, rfl, rfl⟩

/-- C4 (amended): each worker loop iteration proceeds in the order
fetch, flag check, decode, push: (a) the worker first asks the page iterator
for the next page — even when the cancellation flag is already set — and
returns normally if the stream is exhausted; (b) with a page in hand it
checks the flag and, if the flag is set, returns immediately with no decode
and no push (the resulting state does not depend on the decode adapter and
leaves the queue untouched); (c) otherwise it decodes the page; (d) it
pushes exactly that one decoded batch onto the relay queue, blocking while
the queue is full. -/
theorem claim_C4 {P I E : Type} (decode decode' : P → Except E I)
    (s : Sys P I E) (i : Nat) (p : P) (rest : List (Except E P)) (it : I) :
    (listGet s.workers i = some (.fetching (.ok p :: rest)) →
      wstep decode s i =
        some { s with workers := listSet s.workers i (.checking p rest) }) ∧
    (listGet s.workers i = some (.fetching []) →
      wstep decode s i =
        some { s with workers := listSet s.workers i .finishedOk }) ∧
    (listGet s.workers i = some (.checking p rest) → s.done = true →
      wstep decode s i =
        some { s with workers := listSet s.workers i .finishedOk } ∧
      wstep decode s i = wstep decode' s i) ∧
    (listGet s.workers i = some (.checking p rest) → s.done = false →
      decode p = .ok it →
      wstep decode s i =
        some { s with workers := listSet s.workers i (.pushing it rest) }) ∧
    (listGet s.workers i = some (.pushing it rest) →
      hasRoom s.queue s.maxsize = true →
      wstep decode s i =
        some { s with
                workers := listSet s.workers i (.fetching rest)
                queue := s.queue ++ [it] }) ∧
    (listGet s.workers i = some (.pushing it rest) →
      hasRoom s.queue s.maxsize = false →
      wstep decode s i = none) := by
  refine ⟨?_, ?_, ?_, ?_, ?_, ?_⟩
  · intro hget
    simp [wstep, hget]
  · intro hget
    simp [wstep, hget]
  · intro hget hdone
    constructor
    · simp [wstep, hget, hdone]
    · simp [wstep, hget, hdone]
  · intro hget hdone hdec
    simp [wstep, hget, hdone, hdec]
  · intro hget hroom
    simp [wstep, hget, hroom]
  · intro hget hroom
    simp [wstep, hget, hroom]

/-- Probe state with the flag down: a worker at each interesting loop point,
and an empty queue of capacity 1. -/
def c4probe : Sys Nat Nat Nat :=
  { workers := [.fetching [Except.ok 2], .fetching [], .checking 3 [], .pushing 9 []],
    notDone := [0, 1, 2, 3], queue := [], maxsize := 1, done := false,
    delivered := [], phase := .loopTop }

/-- Probe state with the flag up and the queue full. -/
def c4probe2 : Sys Nat Nat Nat :=
  { workers := [.fetching [Except.ok 2], .fetching [], .checking 3 [], .pushing 9 []],
    notDone := [0, 1, 2, 3], queue := [7], maxsize := 1, done := true,
    delivered := [], phase := .loopTop }

/-- A decode adapter that always fails, used to exhibit decode-independence. -/
def errDecode : Nat → Except Nat Nat := fun _ => .error 9

/-- Witness for the amended C4: every conjunct evaluated at a concrete
worker state. -/
theorem claim_C4_witness :
    (wstep okDecode c4probe 0 =
      some { c4probe with
              workers := listSet c4probe.workers 0 (.checking 2 [])}) ∧
    (wstep okDecode c4probe 1 =
      some { c4probe with workers := listSet c4probe.workers 1 .finishedOk }) ∧
    (wstep okDecode c4probe2 2 =
      some { c4probe2 with workers := listSet c4probe2.workers 2 .finishedOk } ∧
      wstep okDecode c4probe2 2 = wstep errDecode c4probe2 2) ∧
    (wstep okDecode c4probe 2 =
      some { c4probe with workers := listSet c4probe.workers 2 (.pushing 3 []) }) ∧
    (wstep okDecode c4probe 3 =
      some { c4probe with
              workers := listSet c4probe.workers 3 (.fetching [])
              queue := c4probe.queue ++ [9] }) ∧
    (wstep okDecode c4probe2 3 = none) :=
  ⟨(claim_C4 okDecode errDecode c4probe 0 2 [] 0).1 rfl,
   (claim_C4 okDecode errDecode c4probe 1 2 [] 0).2.1 rfl,
   (claim_C4 okDecode errDecode c4probe2 2 3 [] 0).2.2.1 rfl rfl,
   (claim_C4 okDecode errDecode c4probe 2 3 [] 3).2.2.2.1 rfl rfl rfl,
   (claim_C4 okDecode errDecode c4probe 3 0 [] 9).2.2.2.2.1 rfl (by decide),
   (claim_C4 okDecode errDecode c4probe2 3 0 [] 9).2.2.2.2.2 rfl (by decide)⟩

/-! ### Pre-spawn front-end claims (C6, C7, C8, C10) -/

/-- C6: when session negotiation returns an empty stream set (empty table),
the download returns without error and yields the empty-result plan: no
worker pool, no relay queue and no `_DownloadState` flag are ever created
(the plan carries no spawned machine). -/
theorem claim_C6 {P I E : Type} (tableId : List Char) (preserveOrder : Bool)
    (mqs : MaxQueueSize) (negotiate : Nat → List (List (Except E P)))
    (h1 : tableId.contains '$' = false) (h2 : tableId.contains '@' = false)
    (h3 : negotiate (requestedStreamCount preserveOrder) = []) :
    @download_table_bqstorage P I E tableId preserveOrder mqs negotiate =
      (.ok .emptyResult, true) ∧
    (DownloadPlan.emptyResult : DownloadPlan P I E).spawned = none := by
  constructor
  · unfold download_table_bqstorage
    rw [h1, h2, h3]
    simp
  · rfl

/-- Witness for C6 at a concrete empty negotiation. -/
theorem claim_C6_witness :
    @download_table_bqstorage Nat Nat Nat ['t', 'b', 'l'] false .default
      (fun _ => []) = (.ok .emptyResult, true) ∧
    (DownloadPlan.emptyResult : DownloadPlan Nat Nat Nat).spawned = none :=
  claim_C6 ['t', 'b', 'l'] false .default (fun _ => []) (by decide) (by decide) rfl

/-- C7: a table id containing the partition qualifier raises the partition
`ValueError`, one containing the snapshot qualifier raises the snapshot
`ValueError`, in both cases before `create_read_session` is invoked (the
negotiation-activity flag stays `false`); ids without either qualifier pass
validation and reach negotiation. -/
theorem claim_C7 {P I E : Type} (tableId : List Char) (preserveOrder : Bool)
    (mqs : MaxQueueSize) (negotiate : Nat → List (List (Except E P))) :
    (tableId.contains '$' = true →
      @download_table_bqstorage P I E tableId preserveOrder mqs negotiate =
        (.error .partitionNotSupported, false)) ∧
    (tableId.contains '$' = false → tableId.contains '@' = true →
      @download_table_bqstorage P I E tableId preserveOrder mqs negotiate =
        (.error .snapshotNotSupported, false)) ∧
    (tableId.contains '$' = false → tableId.contains '@' = false →
      ∃ plan, @download_table_bqstorage P I E tableId preserveOrder mqs negotiate =
        (.ok plan, true)) := by
  refine ⟨?_, ?_, ?_⟩
  · intro h1
    unfold download_table_bqstorage
    rw [h1]
    simp
  · intro h1 h2
    unfold download_table_bqstorage
    rw [h1, h2]
    simp
  · intro h1 h2
    cases hstr : negotiate (requestedStreamCount preserveOrder) with
    | nil =>
      refine ⟨.emptyResult, ?_⟩
      unfold download_table_bqstorage
      rw [h1, h2, hstr]
      simp
    | cons a as =>
      refine ⟨.spawn (mkInit (a :: as) (resolveMaxQueueSize mqs (a :: as).length)), ?_⟩
      unfold download_table_bqstorage
      rw [h1, h2, hstr]
      simp

/-- Witness for C7: both qualifiers rejected with negotiation never invoked,
and a clean id passing validation, at concrete inputs. -/
theorem claim_C7_witness :
    @download_table_bqstorage Nat Nat Nat ['t', '$'] false .default
      (fun _ => [[]]) = (.error .partitionNotSupported, false) ∧
    @download_table_bqstorage Nat Nat Nat ['t', '@'] false .default
      (fun _ => [[]]) = (.error .snapshotNotSupported, false) ∧
    ∃ plan, @download_table_bqstorage Nat Nat Nat ['t'] false .default
      (fun _ => [[]]) = (.ok plan, true) :=
  ⟨(claim_C7 ['t', '$'] false .default (fun _ => [[]])).1 (by decide),
   (claim_C7 ['t', '@'] false .default (fun _ => [[]])).2.1 (by decide) (by decide),
   (claim_C7 ['t'] false .default (fun _ => [[]])).2.2 (by decide) (by decide)⟩

/-- C8: the relay queue capacity policy of the spawned machine — the default
sentinel gives one slot per negotiated stream, the `None` override gives a
`maxsize` of `0`, which Python queue semantics make effectively infinite
(a push always has room), and an explicit positive integer is used as is. -/
theorem claim_C8 {P I E : Type} (tableId : List Char) (preserveOrder : Bool)
    (negotiate : Nat → List (List (Except E P)))
    (h1 : tableId.contains '$' = false) (h2 : tableId.contains '@' = false)
    (hne : negotiate (requestedStreamCount preserveOrder) ≠ []) :
    planMaxsize
      (@download_table_bqstorage P I E tableId preserveOrder .default negotiate) =
      some ((negotiate (requestedStreamCount preserveOrder)).length : Int) ∧
    (planMaxsize
      (@download_table_bqstorage P I E tableId preserveOrder .unbounded negotiate) =
      some 0 ∧ ∀ q : List I, hasRoom q 0 = true) ∧
    (∀ n : Int, 0 < n →
      planMaxsize
        (@download_table_bqstorage P I E tableId preserveOrder (.explicit n)
          negotiate) = some n) := by
  cases hstr : negotiate (requestedStreamCount preserveOrder) with
  | nil => exact absurd hstr hne
  | cons a as =>
    refine ⟨?_, ⟨?_, ?_⟩, ?_⟩
    · unfold download_table_bqstorage planMaxsize
      rw [h1, h2, hstr]
      simp [mkInit, resolveMaxQueueSize]
    · unfold download_table_bqstorage planMaxsize
      rw [h1, h2, hstr]
      simp [mkInit, resolveMaxQueueSize]
    · intro q
      simp [hasRoom]
    · intro n hn
      unfold download_table_bqstorage planMaxsize
      rw [h1, h2, hstr]
      simp [mkInit, resolveMaxQueueSize]

/-- A concrete two-stream negotiation used by the C8 and C10 witnesses. -/
def neg2 : Nat → List (List (Except Nat Nat)) :=
  fun _ => [[Except.ok 1], [Except.ok 2]]

/-- Witness for C8 at a concrete two-stream negotiation. -/
theorem claim_C8_witness :
    planMaxsize (@download_table_bqstorage Nat Nat Nat ['t'] false .default neg2) =
      some ((neg2 (requestedStreamCount false)).length : Int) ∧
    planMaxsize (@download_table_bqstorage Nat Nat Nat ['t'] false .unbounded neg2) =
      some 0 ∧
    hasRoom [9, 9, 9] (0 : Int) = true ∧
    planMaxsize
      (@download_table_bqstorage Nat Nat Nat ['t'] false (.explicit 5) neg2) =
      some 5 :=
  ⟨(claim_C8 ['t'] false neg2 (by decide) (by decide) (by decide)).1,
   (claim_C8 ['t'] false neg2 (by decide) (by decide) (by decide)).2.1.1,
   (claim_C8 ['t'] false neg2 (by decide) (by decide) (by decide)).2.1.2 [9, 9, 9],
   (claim_C8 ['t'] false neg2 (by decide) (by decide) (by decide)).2.2 5 (by decide)⟩

/-- C10: an explicit zero or negative `max_queue_size` raises no validation
error — the download still spawns, the relay queue is created with exactly
that value as its `maxsize`, and by Python queue semantics such a queue is
unbounded: a push always has room. -/
theorem claim_C10 {P I E : Type} (tableId : List Char) (preserveOrder : Bool)
    (negotiate : Nat → List (List (Except E P))) (n : Int)
    (h1 : tableId.contains '$' = false) (h2 : tableId.contains '@' = false)
    (hne : negotiate (requestedStreamCount preserveOrder) ≠ []) (hn : n ≤ 0) :
    (∃ init : Sys P I E,
      @download_table_bqstorage P I E tableId preserveOrder (.explicit n)
        negotiate = (.ok (.spawn init), true) ∧ init.maxsize = n) ∧
    ∀ q : List I, hasRoom q n = true := by
  constructor
  · cases hstr : negotiate (requestedStreamCount preserveOrder) with
    | nil => exact absurd hstr hne
    | cons a as =>
      refine ⟨mkInit (a :: as) n, ?_, rfl⟩
      unfold download_table_bqstorage
      rw [h1, h2, hstr]
      simp [resolveMaxQueueSize]
  · intro q
    unfold hasRoom
    rw [decide_eq_true hn]
    simp

/-- Witness for C10 with the explicit override `-1`. -/
theorem claim_C10_witness :
    (∃ init : Sys Nat Nat Nat,
      @download_table_bqstorage Nat Nat Nat ['t'] false (.explicit (-1)) neg2 =
        (.ok (.spawn init), true) ∧ init.maxsize = -1) ∧
    ∀ q : List Nat, hasRoom q (-1) = true :=
  claim_C10 ['t'] false neg2 (-1) (by decide) (by decide) (by decide) (by decide)

end BQ
